import Mathlib

/-!
Shallow embedding of `src/types/coin.go` (package `types` of
sensecollective/basecoin): the `Coin`/`Coins` data model, text
parsing/formatting, validation, sorting and merge-based arithmetic.

Go `int64` amounts are modelled as `Int` together with `wrap64`, which is
applied exactly where Go performs a machine operation (the `+` inside
`Plus` and the unary `-` inside `Negative`).  Go strings are modelled as
Lean `String`; Go's byte-wise lexicographic comparison of UTF-8 strings
coincides with code-point lexicographic comparison, which `charListLt`
computes explicitly.
-/

/-- Lexicographic strict order on character lists by code point; this is
what Go's byte-wise `<` / `strings.Compare` computes on UTF-8 strings. -/
def charListLt : List Char → List Char → Bool
  | [], [] => false
  | [], _ :: _ => true
  | _ :: _, [] => false
  | c :: cs, d :: ds =>
    if c.toNat < d.toNat then true
    else if d.toNat < c.toNat then false
    else charListLt cs ds

/-- Lexicographic non-strict order on character lists by code point. -/
def charListLe : List Char → List Char → Bool
  | [], _ => true
  | _ :: _, [] => false
  | c :: cs, d :: ds =>
    if c.toNat < d.toNat then true
    else if d.toNat < c.toNat then false
    else charListLe cs ds

/-- Go string `<` (byte-wise lexicographic). -/
def strLt (s t : String) : Bool := charListLt s.data t.data

/-- Go string `<=` (byte-wise lexicographic). -/
def strLe (s t : String) : Bool := charListLe s.data t.data

/-- A single (denomination, amount) pair; `type Coin struct` in the source.
The Go field `Amount` is an `int64`. -/
structure Coin where
  Denom : String
  Amount : Int
deriving DecidableEq, Repr

/-- `type Coins []Coin` in the source. -/
abbrev Coins := List Coin

/-- Two's-complement wrap-around of Go `int64` arithmetic: the unique
representative of `z` modulo `2^64` lying in `[-2^63, 2^63)`. -/
def wrap64 (z : Int) : Int := (z + 2 ^ 63) % 2 ^ 64 - 2 ^ 63

/-- Inner loop of `Coins.Plus` while the first cursor sits on
`coinA :: restA`: walks the second sequence.  `plusRestA` is the merge
continuation for the advanced first cursor (`Plus restA`), so that the
whole definition is structurally recursive and computes by `rfl`. -/
def plusAux (coinA : Coin) (restA : Coins) (plusRestA : Coins → Coins) : Coins → Coins
  | [] => coinA :: restA
  | coinB :: restB =>
    if strLt coinA.Denom coinB.Denom then
      coinA :: plusRestA (coinB :: restB)
    else if strLt coinB.Denom coinA.Denom then
      coinB :: plusAux coinA restA plusRestA restB
    else if wrap64 (coinA.Amount + coinB.Amount) = 0 then
      plusRestA restB
    else
      ⟨coinA.Denom, wrap64 (coinA.Amount + coinB.Amount)⟩ :: plusRestA restB

/-- `func (coinsA Coins) Plus(coinsB Coins) Coins`: the two-cursor
union-merge loop of the source.  The Go
`switch strings.Compare(coinA.Denom, coinB.Denom)` cases `-1`, `1`, `0`
become the three branches of `plusAux`; the Go sum
`coinA.Amount+coinB.Amount` is an `int64` addition, hence `wrap64`. -/
def Plus : Coins → Coins → Coins
  | [], coinsB => coinsB
  | coinA :: restA, coinsB => plusAux coinA restA (Plus restA) coinsB

/-- `func (coins Coins) Negative() Coins`: sign-flip of every amount
(`-coin.Amount` is an `int64` negation, hence `wrap64`). -/
def Negative (coins : Coins) : Coins :=
  coins.map fun coin => ⟨coin.Denom, wrap64 (-coin.Amount)⟩

/-- `func (coinsA Coins) Minus(coinsB Coins) Coins`. -/
def Minus (coinsA coinsB : Coins) : Coins :=
  Plus coinsA (Negative coinsB)

/-- The loop body of `Coins.IsValid` for the `default` (length ≥ 2) case:
walks the rest of the list carrying the previous denomination. -/
def isValidFrom (lowDenom : String) : List Coin → Bool
  | [] => true
  | coin :: rest =>
    if strLe coin.Denom lowDenom then false
    else if coin.Amount = 0 then false
    else isValidFrom coin.Denom rest

/-- `func (coins Coins) IsValid() bool`: the `switch len(coins)` of the
source.  Note that in the `default` case the loop ranges over
`coins[1:]`, so the first coin's amount is never tested. -/
def IsValid (coins : Coins) : Bool :=
  match coins with
  | [] => true
  | [coin] => coin.Amount ≠ 0
  | coin :: rest => isValidFrom coin.Denom rest

/-- `func (coins Coins) IsNonnegative() bool`. -/
def IsNonnegative (coins : Coins) : Bool :=
  if coins.length = 0 then true
  else coins.all fun coin => !(coin.Amount < 0)

/-- `func (coins Coins) IsPositive() bool`. -/
def IsPositive (coins : Coins) : Bool :=
  if coins.length = 0 then false
  else coins.all fun coin => !(coin.Amount ≤ 0)

/-- `func (coins Coins) IsZero() bool`. -/
def IsZero (coins : Coins) : Bool := coins.length = 0

/-- `func (coinsA Coins) IsGTE(coinsB Coins) bool`. -/
def IsGTE (coinsA coinsB : Coins) : Bool :=
  let diff := Minus coinsA coinsB
  if diff.length = 0 then true else IsNonnegative diff

/-- `func (coinsA Coins) IsEqual(coinsB Coins) bool`. -/
def IsEqual (coinsA coinsB : Coins) : Bool :=
  if coinsA.length ≠ coinsB.length then false
  else (coinsA.zip coinsB).all fun p => p.1 = p.2

/-- `func (c Coins) Sort()` sorts by `Less(i,j) = c[i].Denom < c[j].Denom`.
Modelled as an insertion sort by `Denom ≤`: Go's `sort.Sort` is unstable,
but any denomination-sorted rearrangement is observationally identical
for the uses in this file (ties never survive validation). -/
def sortCoins (coins : Coins) : Coins :=
  List.insertionSort (fun c1 c2 => strLe c1.Denom c2.Denom = true) coins

example : Plus [⟨"atom", 5⟩] [⟨"atom", -5⟩] = [] := by decide
example : Plus [⟨"atom", 10⟩] [⟨"atom", 3⟩, ⟨"btc", 1⟩] = [⟨"atom", 13⟩, ⟨"btc", 1⟩] := by decide
example : Minus [⟨"atom", 10⟩] [⟨"atom", 3⟩, ⟨"btc", 1⟩] = [⟨"atom", 7⟩, ⟨"btc", -1⟩] := by decide
example : IsValid [⟨"atom", 0⟩, ⟨"btc", 5⟩] = true := by decide
example : IsValid [⟨"atom", 5⟩, ⟨"btc", 0⟩] = false := by decide
example : sortCoins [⟨"btc", 10⟩, ⟨"atom", 5⟩] = [⟨"atom", 5⟩, ⟨"btc", 10⟩] := by decide
example : IsGTE [⟨"atom", 10⟩] [⟨"atom", 3⟩] = true := by decide
example : IsGTE [⟨"atom", 10⟩] [⟨"atom", 3⟩, ⟨"btc", 1⟩] = false := by decide

/-! ### Order facts about the byte-wise string comparison -/

theorem charToNat_inj {c d : Char} (h : c.toNat = d.toNat) : c = d :=
  Char.ext (UInt32.toNat.inj h)

theorem charListLt_irrefl : ∀ l, charListLt l l = false
  | [] => rfl
  | c :: cs => by simp [charListLt, charListLt_irrefl cs]

theorem charListLt_asymm : ∀ l1 l2, charListLt l1 l2 = true → charListLt l2 l1 = false
  | [], [] => by simp [charListLt]
  | [], _ :: _ => by simp [charListLt]
  | _ :: _, [] => by simp [charListLt]
  | c :: cs, d :: ds => by
    simp only [charListLt]
    by_cases h1 : c.toNat < d.toNat
    · have h2 : ¬ d.toNat < c.toNat := by omega
      simp [h1, h2]
    · by_cases h2 : d.toNat < c.toNat
      · simp [h1, h2]
      · simp [h1, h2]
        exact charListLt_asymm cs ds

theorem charListLt_eq_of_not : ∀ l1 l2, charListLt l1 l2 = false → charListLt l2 l1 = false → l1 = l2
  | [], [] => fun _ _ => rfl
  | [], _ :: _ => by simp [charListLt]
  | _ :: _, [] => by intro _ h; simp [charListLt] at h
  | c :: cs, d :: ds => by
    simp only [charListLt]
    by_cases h1 : c.toNat < d.toNat
    · simp [h1]
    · by_cases h2 : d.toNat < c.toNat
      · simp [h1, h2]
      · simp only [h1, h2, if_false]
        intro hcd hdc
        have hc : c = d := charToNat_inj (by omega)
        rw [hc, charListLt_eq_of_not cs ds hcd hdc]

theorem charListLt_trans : ∀ l1 l2 l3, charListLt l1 l2 = true → charListLt l2 l3 = true →
    charListLt l1 l3 = true
  | [], [], _ => by simp [charListLt]
  | [], _ :: _, [] => by simp [charListLt]
  | [], _ :: _, _ :: _ => by simp [charListLt]
  | _ :: _, [], _ => by simp [charListLt]
  | _ :: _, _ :: _, [] => by simp [charListLt]
  | c :: cs, d :: ds, e :: es => by
    simp only [charListLt]
    by_cases h1 : c.toNat < d.toNat
    · by_cases h2 : d.toNat < e.toNat
      · have h3 : c.toNat < e.toNat := by omega
        simp [h3]
      · by_cases h2a : e.toNat < d.toNat
        · simp [h2, h2a]
        · have h3 : c.toNat < e.toNat := by omega
          simp [h3]
    · by_cases h1a : d.toNat < c.toNat
      · simp [h1, h1a]
      · by_cases h2 : d.toNat < e.toNat
        · have h3 : c.toNat < e.toNat := by omega
          simp [h3]
        · by_cases h2a : e.toNat < d.toNat
          · simp [h2, h2a]
          · have h3 : ¬ c.toNat < e.toNat := by omega
            have h3a : ¬ e.toNat < c.toNat := by omega
            simp [h1, h1a, h2, h2a, h3, h3a]
            exact charListLt_trans cs ds es

theorem strLt_irrefl (s : String) : strLt s s = false := charListLt_irrefl s.data

theorem strLt_asymm {s t : String} (h : strLt s t = true) : strLt t s = false :=
  charListLt_asymm s.data t.data h

theorem strLt_eq_of_not {s t : String} (h1 : strLt s t = false) (h2 : strLt t s = false) :
    s = t := by
  cases s with
  | mk l1 => cases t with
    | mk l2 => exact congrArg String.mk (charListLt_eq_of_not l1 l2 h1 h2)

theorem strLt_trans {s t u : String} (h1 : strLt s t = true) (h2 : strLt t u = true) :
    strLt s u = true :=
  charListLt_trans s.data t.data u.data h1 h2

theorem charListLe_eq_not_lt : ∀ l1 l2, charListLe l1 l2 = !charListLt l2 l1
  | [], [] => by simp [charListLe, charListLt]
  | [], _ :: _ => by simp [charListLe, charListLt]
  | _ :: _, [] => by simp [charListLe, charListLt]
  | c :: cs, d :: ds => by
    simp only [charListLe, charListLt]
    by_cases h1 : c.toNat < d.toNat
    · have h2 : ¬ d.toNat < c.toNat := by omega
      simp [h1, h2]
    · by_cases h2 : d.toNat < c.toNat
      · simp [h1, h2]
      · simp [h1, h2, charListLe_eq_not_lt cs ds]

theorem strLe_eq_not_lt (s t : String) : strLe s t = !strLt t s :=
  charListLe_eq_not_lt s.data t.data

/-- The strict denomination order used throughout: "`c1`'s denomination is
byte-wise lexicographically below `c2`'s".  A `Coins` value is in canonical
form exactly when it is `List.Pairwise dlt`. -/
abbrev dlt (c1 c2 : Coin) : Prop := strLt c1.Denom c2.Denom = true

theorem dlt_trans {c1 c2 c3 : Coin} (h1 : dlt c1 c2) (h2 : dlt c2 c3) : dlt c1 c3 :=
  strLt_trans h1 h2

/-! ### Step equations for `Plus` -/

theorem plus_nil_left (coinsB : Coins) : Plus [] coinsB = coinsB := rfl

theorem plus_nil_right (coinsA : Coins) : Plus coinsA [] = coinsA := by
  cases coinsA <;> rfl

theorem plus_cons_cons (coinA coinB : Coin) (restA restB : Coins) :
    Plus (coinA :: restA) (coinB :: restB) =
      if strLt coinA.Denom coinB.Denom then
        coinA :: Plus restA (coinB :: restB)
      else if strLt coinB.Denom coinA.Denom then
        coinB :: Plus (coinA :: restA) restB
      else if wrap64 (coinA.Amount + coinB.Amount) = 0 then
        Plus restA restB
      else
        ⟨coinA.Denom, wrap64 (coinA.Amount + coinB.Amount)⟩ :: Plus restA restB := rfl

instance : DecidableRel dlt := fun c1 c2 => instDecidableEqBool _ _

/-! ### Algebra of `Plus` -/

theorem wrap64_add_wrap64_neg (x : Int) : wrap64 (x + wrap64 (-x)) = 0 := by
  unfold wrap64
  omega

theorem plus_comm_aux : ∀ coinsA coinsB : Coins, Plus coinsA coinsB = Plus coinsB coinsA := by
  intro A
  induction A with
  | nil => intro B; rw [plus_nil_left, plus_nil_right]
  | cons a as ihA =>
    intro B
    induction B with
    | nil => rw [plus_nil_left, plus_nil_right]
    | cons b bs ihB =>
      rw [plus_cons_cons, plus_cons_cons]
      by_cases h1 : strLt a.Denom b.Denom = true
      · have h2 : strLt b.Denom a.Denom = false := strLt_asymm h1
        simp [h1, h2, ihA]
      · by_cases h2 : strLt b.Denom a.Denom = true
        · simp [h1, h2, ihB]
        · have he : a.Denom = b.Denom :=
            strLt_eq_of_not (Bool.not_eq_true _ ▸ h1) (Bool.not_eq_true _ ▸ h2)
          simp only [h1, h2, if_false, Bool.not_eq_true] at *
          simp [h1, h2, he, add_comm, ihA bs]

theorem plus_negative_self : ∀ coins : Coins, Plus coins (Negative coins) = [] := by
  intro A
  induction A with
  | nil => rfl
  | cons a as ih =>
    show Plus (a :: as) (⟨a.Denom, wrap64 (-a.Amount)⟩ :: Negative as) = []
    rw [plus_cons_cons]
    simp [strLt_irrefl, wrap64_add_wrap64_neg, ih]

/-- Claim C8: for every `Coins` sequence `A`, `Plus A []` is structurally
equal to `A` (the empty sequence is a right identity for `Plus`), and it
is a left identity as well. -/
theorem c8_plus_empty_identity (coinsA : Coins) :
    Plus coinsA [] = coinsA ∧ Plus [] coinsA = coinsA :=
  ⟨plus_nil_right coinsA, plus_nil_left coinsA⟩

/-- Claim C3: for denomination-sorted, duplicate-free operands,
`A.Plus(B)` equals `B.Plus(A)` element for element. -/
theorem c3_plus_commutative (coinsA coinsB : Coins)
    (hA : List.Pairwise dlt coinsA) (hB : List.Pairwise dlt coinsB) :
    Plus coinsA coinsB = Plus coinsB coinsA :=
  plus_comm_aux coinsA coinsB

/-- Witness for C3 at concrete sorted inputs. -/
theorem c3_plus_commutative_witness :
    Plus [⟨"atom", 1⟩, ⟨"btc", 2⟩] [⟨"btc", 3⟩] =
      Plus [⟨"btc", 3⟩] [⟨"atom", 1⟩, ⟨"btc", 2⟩] :=
  c3_plus_commutative _ _ (by decide) (by decide)

/-- Claim C10: for any strictly denomination-sorted `A` — zero-amount
entries allowed — `A.Minus(A)` is the empty sequence: every pairwise sum
nets to zero and the merge drops every zero sum. -/
theorem c10_minus_self_empty (coins : Coins) (h : List.Pairwise dlt coins) :
    Minus coins coins = [] :=
  plus_negative_self coins

/-- Witness for C10 on a sequence containing a zero-amount coin. -/
theorem c10_minus_self_empty_witness :
    Minus [⟨"atom", 0⟩, ⟨"btc", 5⟩] [⟨"atom", 0⟩, ⟨"btc", 5⟩] = [] :=
  c10_minus_self_empty _ (by decide)

/-- Claim C7: `IsGTE(A, B)` is true exactly when `A.Minus(B)` is empty or
every coin of `A.Minus(B)` has a nonnegative amount. -/
theorem c7_isGTE_iff (coinsA coinsB : Coins)
    (hA : List.Pairwise dlt coinsA) (hB : List.Pairwise dlt coinsB) :
    IsGTE coinsA coinsB = true ↔
      (Minus coinsA coinsB = [] ∨ ∀ c ∈ Minus coinsA coinsB, 0 ≤ c.Amount) := by
  unfold IsGTE IsNonnegative
  by_cases h : (Minus coinsA coinsB).length = 0
  · simp [h, List.length_eq_zero.mp h]
  · have hne : Minus coinsA coinsB ≠ [] := by
      intro he
      exact h (by simp [he])
    simp [h, hne, List.all_eq_true, Int.not_lt]

/-- Witness for C7: `IsGTE` holds when the difference is entrywise
nonnegative. -/
theorem c7_isGTE_iff_witness : IsGTE [⟨"atom", 10⟩] [⟨"atom", 3⟩] = true :=
  (c7_isGTE_iff _ _ (by decide) (by decide)).mpr (Or.inr (by decide))

/-! ### The merge preserves canonical form -/

theorem mem_plus_denom : ∀ coinsA coinsB : Coins, ∀ c ∈ Plus coinsA coinsB,
    (∃ x ∈ coinsA, c.Denom = x.Denom) ∨ (∃ x ∈ coinsB, c.Denom = x.Denom) := by
  intro A
  induction A with
  | nil => intro B c hc; exact Or.inr ⟨c, by simpa [plus_nil_left] using hc, rfl⟩
  | cons a as ihA =>
    intro B
    induction B with
    | nil =>
      intro c hc
      rw [plus_nil_right] at hc
      exact Or.inl ⟨c, hc, rfl⟩
    | cons b bs ihB =>
      intro c hc
      rw [plus_cons_cons] at hc
      by_cases h1 : strLt a.Denom b.Denom = true
      · rw [if_pos h1] at hc
        rcases List.mem_cons.mp hc with rfl | hc'
        · exact Or.inl ⟨c, List.mem_cons_self c as, rfl⟩
        · rcases ihA (b :: bs) c hc' with ⟨x, hx, he⟩ | hr
          · exact Or.inl ⟨x, List.mem_cons_of_mem a hx, he⟩
          · exact Or.inr hr
      · by_cases h2 : strLt b.Denom a.Denom = true
        · rw [if_neg h1, if_pos h2] at hc
          rcases List.mem_cons.mp hc with rfl | hc'
          · exact Or.inr ⟨c, List.mem_cons_self c bs, rfl⟩
          · rcases ihB c hc' with hl | ⟨x, hx, he⟩
            · exact Or.inl hl
            · exact Or.inr ⟨x, List.mem_cons_of_mem b hx, he⟩
        · rw [if_neg h1, if_neg h2] at hc
          by_cases h0 : wrap64 (a.Amount + b.Amount) = 0
          · rw [if_pos h0] at hc
            rcases ihA bs c hc with ⟨x, hx, he⟩ | ⟨x, hx, he⟩
            · exact Or.inl ⟨x, List.mem_cons_of_mem a hx, he⟩
            · exact Or.inr ⟨x, List.mem_cons_of_mem b hx, he⟩
          · rw [if_neg h0] at hc
            rcases List.mem_cons.mp hc with rfl | hc'
            · exact Or.inl ⟨a, List.mem_cons_self a as, rfl⟩
            · rcases ihA bs c hc' with ⟨x, hx, he⟩ | ⟨x, hx, he⟩
              · exact Or.inl ⟨x, List.mem_cons_of_mem a hx, he⟩
              · exact Or.inr ⟨x, List.mem_cons_of_mem b hx, he⟩

theorem plus_pairwise : ∀ coinsA : Coins, List.Pairwise dlt coinsA →
    ∀ coinsB : Coins, List.Pairwise dlt coinsB → List.Pairwise dlt (Plus coinsA coinsB) := by
  intro A
  induction A with
  | nil => intro _ B hB; simpa [plus_nil_left] using hB
  | cons a as ihA =>
    intro hA B
    induction B with
    | nil => intro _; simpa [plus_nil_right] using hA
    | cons b bs ihB =>
      intro hB
      rcases List.pairwise_cons.mp hA with ⟨ha_all, has⟩
      rcases List.pairwise_cons.mp hB with ⟨hb_all, hbs⟩
      rw [plus_cons_cons]
      by_cases h1 : strLt a.Denom b.Denom = true
      · rw [if_pos h1]
        refine List.pairwise_cons.mpr ⟨?_, ihA has (b :: bs) hB⟩
        intro c hc
        show strLt a.Denom c.Denom = true
        rcases mem_plus_denom as (b :: bs) c hc with ⟨x, hx, he⟩ | ⟨x, hx, he⟩
        · rw [he]; exact ha_all x hx
        · rcases List.mem_cons.mp hx with rfl | hx'
          · rw [he]; exact h1
          · rw [he]; exact dlt_trans h1 (hb_all x hx')
      · by_cases h2 : strLt b.Denom a.Denom = true
        · rw [if_neg h1, if_pos h2]
          refine List.pairwise_cons.mpr ⟨?_, ihB hbs⟩
          intro c hc
          show strLt b.Denom c.Denom = true
          rcases mem_plus_denom (a :: as) bs c hc with ⟨x, hx, he⟩ | ⟨x, hx, he⟩
          · rcases List.mem_cons.mp hx with rfl | hx'
            · rw [he]; exact h2
            · rw [he]; exact dlt_trans h2 (ha_all x hx')
          · rw [he]; exact hb_all x hx
        · have he : a.Denom = b.Denom :=
            strLt_eq_of_not (Bool.not_eq_true _ ▸ h1) (Bool.not_eq_true _ ▸ h2)
          rw [if_neg h1, if_neg h2]
          by_cases h0 : wrap64 (a.Amount + b.Amount) = 0
          · rw [if_pos h0]; exact ihA has bs hbs
          · rw [if_neg h0]
            refine List.pairwise_cons.mpr ⟨?_, ihA has bs hbs⟩
            intro c hc
            show strLt a.Denom c.Denom = true
            rcases mem_plus_denom as bs c hc with ⟨x, hx, hec⟩ | ⟨x, hx, hec⟩
            · rw [hec]; exact ha_all x hx
            · rw [hec, he]; exact hb_all x hx

theorem plus_nonzero : ∀ coinsA : Coins, (∀ c ∈ coinsA, c.Amount ≠ 0) →
    ∀ coinsB : Coins, (∀ c ∈ coinsB, c.Amount ≠ 0) →
    ∀ c ∈ Plus coinsA coinsB, c.Amount ≠ 0 := by
  intro A
  induction A with
  | nil => intro _ B hB c hc; exact hB c (by simpa [plus_nil_left] using hc)
  | cons a as ihA =>
    intro hA B
    induction B with
    | nil =>
      intro _ c hc
      rw [plus_nil_right] at hc
      exact hA c hc
    | cons b bs ihB =>
      intro hB c hc
      have hA' : ∀ c ∈ as, c.Amount ≠ 0 := fun x hx => hA x (List.mem_cons_of_mem a hx)
      have hB' : ∀ c ∈ bs, c.Amount ≠ 0 := fun x hx => hB x (List.mem_cons_of_mem b hx)
      rw [plus_cons_cons] at hc
      by_cases h1 : strLt a.Denom b.Denom = true
      · rw [if_pos h1] at hc
        rcases List.mem_cons.mp hc with rfl | hc'
        · exact hA c (List.mem_cons_self c as)
        · exact ihA hA' (b :: bs) hB c hc'
      · by_cases h2 : strLt b.Denom a.Denom = true
        · rw [if_neg h1, if_pos h2] at hc
          rcases List.mem_cons.mp hc with rfl | hc'
          · exact hB c (List.mem_cons_self c bs)
          · exact ihB hB' c hc'
        · rw [if_neg h1, if_neg h2] at hc
          by_cases h0 : wrap64 (a.Amount + b.Amount) = 0
          · rw [if_pos h0] at hc
            exact ihA hA' bs hB' c hc
          · rw [if_neg h0] at hc
            rcases List.mem_cons.mp hc with rfl | hc'
            · exact h0
            · exact ihA hA' bs hB' c hc'

theorem isValidFrom_of : ∀ (l : List Coin) (low : String), List.Pairwise dlt l →
    (∀ c ∈ l, c.Amount ≠ 0) → (∀ c ∈ l, strLt low c.Denom = true) →
    isValidFrom low l = true := by
  intro l
  induction l with
  | nil => intros; rfl
  | cons c cs ih =>
    intro low hp hz hlow
    have h1 : strLe c.Denom low = false := by
      rw [strLe_eq_not_lt, hlow c (List.mem_cons_self c cs)]
      rfl
    unfold isValidFrom
    simp only [h1, Bool.false_eq_true, if_false, hz c (List.mem_cons_self c cs), if_neg]
    exact ih c.Denom (List.pairwise_cons.mp hp).2
      (fun x hx => hz x (List.mem_cons_of_mem c hx))
      (fun x hx => (List.pairwise_cons.mp hp).1 x hx)

theorem isValid_of_pairwise_nonzero (coins : Coins) (hp : List.Pairwise dlt coins)
    (hz : ∀ c ∈ coins, c.Amount ≠ 0) : IsValid coins = true := by
  cases coins with
  | nil => rfl
  | cons c1 rest1 =>
    cases rest1 with
    | nil => simpa [IsValid] using hz c1 (List.mem_cons_self c1 [])
    | cons c2 rest =>
      show isValidFrom c1.Denom (c2 :: rest) = true
      exact isValidFrom_of (c2 :: rest) c1.Denom (List.pairwise_cons.mp hp).2
        (fun x hx => hz x (List.mem_cons_of_mem c1 hx))
        (fun x hx => (List.pairwise_cons.mp hp).1 x hx)

/-- Claim C2: for operands that are strictly denomination-sorted and free
of zero amounts, `A.Plus(B)` satisfies `IsValid` — and indeed is again
strictly sorted, duplicate-free and free of zero-amount coins. -/
theorem c2_plus_isValid (coinsA coinsB : Coins)
    (hA : List.Pairwise dlt coinsA) (hB : List.Pairwise dlt coinsB)
    (hAz : ∀ c ∈ coinsA, c.Amount ≠ 0) (hBz : ∀ c ∈ coinsB, c.Amount ≠ 0) :
    IsValid (Plus coinsA coinsB) = true ∧
      List.Pairwise dlt (Plus coinsA coinsB) ∧
      ∀ c ∈ Plus coinsA coinsB, c.Amount ≠ 0 := by
  have hp := plus_pairwise coinsA hA coinsB hB
  have hz := plus_nonzero coinsA hAz coinsB hBz
  exact ⟨isValid_of_pairwise_nonzero _ hp hz, hp, hz⟩

/-- Witness for C2: a merge with cancellation still validates. -/
theorem c2_plus_isValid_witness :
    IsValid (Plus [⟨"atom", 3⟩] [⟨"atom", -3⟩, ⟨"btc", 1⟩]) = true :=
  (c2_plus_isValid _ _ (by decide) (by decide) (by decide) (by decide)).1

/-! ### Extensional characterisation of the merge -/

/-- The amount held for denomination `d` (first occurrence), if any. -/
def lookupAmt (coins : Coins) (d : String) : Option Int :=
  (coins.find? fun c => c.Denom == d).map Coin.Amount

theorem lookupAmt_nil (d : String) : lookupAmt [] d = none := rfl

theorem lookupAmt_cons (c : Coin) (cs : Coins) (d : String) :
    lookupAmt (c :: cs) d = if c.Denom = d then some c.Amount else lookupAmt cs d := by
  unfold lookupAmt
  by_cases h : c.Denom = d
  · rw [List.find?_cons_of_pos _ (by simpa using h), if_pos h]
    rfl
  · rw [List.find?_cons_of_neg _ (by simpa using h), if_neg h]

theorem lookupAmt_none_of_lt (l : Coins) (d : String)
    (h : ∀ c ∈ l, strLt d c.Denom = true) : lookupAmt l d = none := by
  unfold lookupAmt
  rw [List.find?_eq_none.mpr]
  · rfl
  · intro c hc hbe
    have he : c.Denom = d := by simpa using hbe
    have := h c hc
    rw [he, strLt_irrefl] at this
    exact Bool.noConfusion this

theorem lookup_plus : ∀ coinsA : Coins, List.Pairwise dlt coinsA →
    ∀ coinsB : Coins, List.Pairwise dlt coinsB → ∀ d : String,
    lookupAmt (Plus coinsA coinsB) d =
      match lookupAmt coinsA d, lookupAmt coinsB d with
      | some a, some b => if wrap64 (a + b) = 0 then none else some (wrap64 (a + b))
      | some a, none => some a
      | none, some b => some b
      | none, none => none := by
  intro A
  induction A with
  | nil =>
    intro _ B _ d
    cases hB' : lookupAmt B d <;> simp [plus_nil_left, lookupAmt_nil, hB']
  | cons a as ihA =>
    intro hA B
    induction B with
    | nil =>
      intro _ d
      cases h : lookupAmt (a :: as) d <;> simp [plus_nil_right, lookupAmt_nil, h]
    | cons b bs ihB =>
      intro hB d
      rcases List.pairwise_cons.mp hA with ⟨ha_all, has⟩
      rcases List.pairwise_cons.mp hB with ⟨hb_all, hbs⟩
      rw [plus_cons_cons]
      by_cases h1 : strLt a.Denom b.Denom = true
      · rw [if_pos h1, lookupAmt_cons]
        by_cases hd : a.Denom = d
        · have hAl : lookupAmt (a :: as) d = some a.Amount := by
            rw [lookupAmt_cons, if_pos hd]
          have hBl : lookupAmt (b :: bs) d = none := by
            apply lookupAmt_none_of_lt
            intro c hc
            rcases List.mem_cons.mp hc with rfl | hc'
            · rw [← hd]; exact h1
            · rw [← hd]; exact dlt_trans h1 (hb_all c hc')
          rw [if_pos hd, hAl, hBl]
        · rw [if_neg hd, ihA has (b :: bs) hB d, lookupAmt_cons a as d, if_neg hd]
      · by_cases h2 : strLt b.Denom a.Denom = true
        · rw [if_neg h1, if_pos h2, lookupAmt_cons]
          by_cases hd : b.Denom = d
          · have hAl : lookupAmt (a :: as) d = none := by
              apply lookupAmt_none_of_lt
              intro c hc
              rcases List.mem_cons.mp hc with rfl | hc'
              · rw [← hd]; exact h2
              · rw [← hd]; exact dlt_trans h2 (ha_all c hc')
            have hBl : lookupAmt (b :: bs) d = some b.Amount := by
              rw [lookupAmt_cons, if_pos hd]
            rw [if_pos hd, hAl, hBl]
          · rw [if_neg hd, ihB hbs d, lookupAmt_cons b bs d, if_neg hd]
        · have he : a.Denom = b.Denom :=
            strLt_eq_of_not (Bool.not_eq_true _ ▸ h1) (Bool.not_eq_true _ ▸ h2)
          rw [if_neg h1, if_neg h2]
          by_cases hd : a.Denom = d
          · have hAl : lookupAmt (a :: as) d = some a.Amount := by
              rw [lookupAmt_cons, if_pos hd]
            have hBl : lookupAmt (b :: bs) d = some b.Amount := by
              rw [lookupAmt_cons, if_pos (he ▸ hd)]
            have hasn : lookupAmt as d = none := by
              apply lookupAmt_none_of_lt
              intro c hc
              rw [← hd]
              exact ha_all c hc
            have hbsn : lookupAmt bs d = none := by
              apply lookupAmt_none_of_lt
              intro c hc
              rw [← hd, he]
              exact hb_all c hc
            have hnone : lookupAmt (Plus as bs) d = none := by
              rw [ihA has bs hbs d, hasn, hbsn]
            by_cases h0 : wrap64 (a.Amount + b.Amount) = 0
            · rw [if_pos h0, hnone, hAl, hBl]
              simp [h0]
            · rw [if_neg h0, lookupAmt_cons, if_pos hd, hAl, hBl]
              simp [h0]
          · have hbd : ¬ b.Denom = d := fun hbd => hd (he.trans hbd)
            by_cases h0 : wrap64 (a.Amount + b.Amount) = 0
            · rw [if_pos h0, ihA has bs hbs d, lookupAmt_cons a as d, if_neg hd,
                lookupAmt_cons b bs d, if_neg hbd]
            · rw [if_neg h0, lookupAmt_cons, if_neg hd, ihA has bs hbs d,
                lookupAmt_cons a as d, if_neg hd, lookupAmt_cons b bs d, if_neg hbd]

/-- Claim C1: for strictly denomination-sorted, duplicate-free operands,
`Plus` is the union-merge: the result is again strictly sorted, a
denomination present in only one operand keeps its amount, a denomination
present in both carries the summed amount unless the sum is exactly zero
(in which case it is absent), and an exhausted operand leaves the other's
remainder verbatim. -/
theorem c1_plus_union_merge (coinsA coinsB : Coins)
    (hA : List.Pairwise dlt coinsA) (hB : List.Pairwise dlt coinsB) :
    List.Pairwise dlt (Plus coinsA coinsB) ∧
      Plus coinsA [] = coinsA ∧ Plus [] coinsB = coinsB ∧
      ∀ d : String, lookupAmt (Plus coinsA coinsB) d =
        match lookupAmt coinsA d, lookupAmt coinsB d with
        | some a, some b => if wrap64 (a + b) = 0 then none else some (wrap64 (a + b))
        | some a, none => some a
        | none, some b => some b
        | none, none => none :=
  ⟨plus_pairwise coinsA hA coinsB hB, plus_nil_right coinsA, plus_nil_left coinsB,
    lookup_plus coinsA hA coinsB hB⟩

/-- Witness for C1: the summed amount of a denomination present in both
operands. -/
theorem c1_plus_union_merge_witness :
    lookupAmt (Plus [⟨"atom", 5⟩] [⟨"atom", 3⟩, ⟨"btc", 1⟩]) "atom" = some 8 := by
  have h := (c1_plus_union_merge [⟨"atom", 5⟩] [⟨"atom", 3⟩, ⟨"btc", 1⟩]
    (by decide) (by decide)).2.2.2 "atom"
  rw [h]
  decide

/-! ### Character classes and parsing, from `ParseCoin` / `ParseCoins` -/

/-- Go `unicode.IsSpace`, used by `strings.TrimSpace`: the White_Space
code points. -/
def goIsSpace (c : Char) : Bool :=
  c.toNat = 9 || c.toNat = 10 || c.toNat = 11 || c.toNat = 12 || c.toNat = 13 ||
  c.toNat = 32 || c.toNat = 133 || c.toNat = 160 || c.toNat = 5760 ||
  (8192 ≤ c.toNat && c.toNat ≤ 8202) || c.toNat = 8232 || c.toNat = 8233 ||
  c.toNat = 8239 || c.toNat = 8287 || c.toNat = 12288

/-- Go `strings.TrimSpace`: drop leading and trailing white space. -/
def goTrim (s : String) : String :=
  ⟨((s.data.dropWhile goIsSpace).reverse.dropWhile goIsSpace).reverse⟩

/-- POSIX `[[:digit:]]` (ASCII `0`-`9`), as in the `reCoin` regex. -/
def isDigitB (c : Char) : Bool := 48 ≤ c.toNat && c.toNat ≤ 57

/-- POSIX `[[:space:]]` (ASCII tab, LF, VT, FF, CR, space), as in `reCoin`. -/
def isSpaceB (c : Char) : Bool :=
  c.toNat = 9 || c.toNat = 10 || c.toNat = 11 || c.toNat = 12 || c.toNat = 13 ||
  c.toNat = 32

/-- POSIX `[[:alpha:]]` (ASCII letters), as in `reCoin`. -/
def isAlphaB (c : Char) : Bool :=
  (65 ≤ c.toNat && c.toNat ≤ 90) || (97 ≤ c.toNat && c.toNat ≤ 122)

/-- The anchored regex `^([[:digit:]]+)[[:space:]]*([[:alpha:]]+)$` of the
source (`reCoin.FindStringSubmatch`), returning the two capture groups:
the digit run and the letter run.  Because the three character classes
are pairwise disjoint, the greedy decomposition below is the unique
match. -/
def coinMatch (t : String) : Option (List Char × List Char) :=
  let d := t.data.takeWhile isDigitB
  let al := (t.data.dropWhile isDigitB).dropWhile isSpaceB
  if d.isEmpty then none
  else if al.isEmpty then none
  else if al.all isAlphaB then some (d, al)
  else none

/-- Numeric value of a digit run (what `strconv.Atoi` computes). -/
def natOfDigits (l : List Char) : Nat :=
  l.foldl (fun n c => n * 10 + (c.toNat - 48)) 0

/-- `strconv.Atoi` on an all-digit run: the value if it fits a 64-bit
`int`, otherwise a range error (`none`). -/
def atoi (digits : List Char) : Option Int :=
  if natOfDigits digits ≤ 2 ^ 63 - 1 then some (natOfDigits digits : Int) else none

/-- The error values surfaced by the source: `"%s is invalid coin
definition"` carrying the original input, the `strconv` range error
carrying the digit run, and `"ParseCoins invalid: %#v"` carrying the
offending sequence. -/
inductive ParseErr where
  | invalidFormat (input : String)
  | atoiRange (digits : String)
  | invalidCoinSet (coins : Coins)
deriving DecidableEq, Repr

instance {e a : Type} [DecidableEq e] [DecidableEq a] : DecidableEq (Except e a) := fun x y =>
  match x, y with
  | .ok v, .ok w =>
    if h : v = w then isTrue (by rw [h]) else isFalse (by intro he; cases he; exact h rfl)
  | .error v, .error w =>
    if h : v = w then isTrue (by rw [h]) else isFalse (by intro he; cases he; exact h rfl)
  | .ok _, .error _ => isFalse (by intro he; cases he)
  | .error _, .ok _ => isFalse (by intro he; cases he)

/-- `func ParseCoin(str string) (Coin, error)`: trim, regex-match, parse
the amount, build the coin (denomination = letter run verbatim). -/
def ParseCoin (str : String) : Except ParseErr Coin :=
  match coinMatch (goTrim str) with
  | none => .error (.invalidFormat str)
  | some (digits, letters) =>
    match atoi digits with
    | none => .error (.atoiRange ⟨digits⟩)
    | some amt => .ok ⟨⟨letters⟩, amt⟩

/-- Go `strings.Split(s, ",")` for the one-character separator: `n`
separators yield `n+1` segments (empty segments included). -/
def splitOnChar (sep : Char) : List Char → List (List Char)
  | [] => [[]]
  | c :: cs =>
    match splitOnChar sep cs with
    | [] => [[c]]
    | seg :: segs =>
      if c = sep then [] :: seg :: segs else (c :: seg) :: segs

/-- `func ParseCoins(str string) (Coins, error)`: empty input is the empty
list; otherwise split on `,`, parse every segment (first failure aborts),
sort, and validate. -/
def ParseCoins (str : String) : Except ParseErr Coins :=
  if str.length = 0 then .ok []
  else
    match (splitOnChar ',' str.data).mapM fun seg => ParseCoin ⟨seg⟩ with
    | .error e => .error e
    | .ok coins =>
      let sorted := sortCoins coins
      if IsValid sorted then .ok sorted else .error (.invalidCoinSet sorted)

/-! ### Text formatting, from `Coin.String` / `Coins.String` -/

/-- Decimal digits of `n`, most significant first: ideal (well-founded)
form used in proofs. -/
def natDecimalW (n : Nat) : List Char :=
  if h : n < 10 then [Char.ofNat (48 + n)]
  else natDecimalW (n / 10) ++ [Char.ofNat (48 + n % 10)]
termination_by n
decreasing_by omega

/-- Decimal digits of `n`, fuel-driven so that it computes by `rfl`. -/
def natDecimalCore : Nat → Nat → List Char → List Char
  | 0, _, acc => acc
  | fuel + 1, n, acc =>
    if n < 10 then Char.ofNat (48 + n) :: acc
    else natDecimalCore fuel (n / 10) (Char.ofNat (48 + n % 10) :: acc)

/-- Decimal digits of `n`, most significant first. -/
def natDecimal (n : Nat) : List Char := natDecimalCore (n + 1) n []

/-- Base-10 rendering of a Go `int64` (`fmt.Sprintf("%v", ...)`): a `-`
sign followed by the digits of the magnitude when negative. -/
def intToString (z : Int) : String :=
  if z < 0 then ⟨Char.ofNat 45 :: natDecimal (-z).toNat⟩ else ⟨natDecimal z.toNat⟩

/-- `func (coin Coin) String() string`: `"<amount><denom>"`. -/
def CoinString (coin : Coin) : String := intToString coin.Amount ++ coin.Denom

/-- One step of the `Coins.String` loop: `out += coin.String() + ","`. -/
def coinsCatF (acc : List Char) (coin : Coin) : List Char :=
  acc ++ (CoinString coin).data ++ [',']

/-- `func (coins Coins) String() string`: append `"<coin>,"` for every
coin, then cut the trailing comma (`out[:len(out)-1]`); empty coins give
the empty string. -/
def CoinsString (coins : Coins) : String :=
  if coins.length = 0 then ""
  else ⟨(coins.foldl coinsCatF []).dropLast⟩

example : ParseCoin "10atom" = .ok ⟨"atom", 10⟩ := by decide
example : ParseCoin " 10 atom " = .ok ⟨"atom", 10⟩ := by decide
example : ParseCoin "atom10" = .error (.invalidFormat "atom10") := by decide
example : ParseCoin " 5btc" = .ok ⟨"btc", 5⟩ := by decide
example : ParseCoins "" = .ok [] := by decide
example : ParseCoins "5atom,10btc" = .ok [⟨"atom", 5⟩, ⟨"btc", 10⟩] := by decide
example : ParseCoins "10btc,5atom" = .ok [⟨"atom", 5⟩, ⟨"btc", 10⟩] := by decide
example : ParseCoins "5atom,0btc" = .error (.invalidCoinSet [⟨"atom", 5⟩, ⟨"btc", 0⟩]) := by decide
example : ParseCoins "0atom,5btc" = .ok [⟨"atom", 0⟩, ⟨"btc", 5⟩] := by decide
example : ParseCoins "10atom, 5btc" = .ok [⟨"atom", 10⟩, ⟨"btc", 5⟩] := by decide
example : CoinString ⟨"atom", -1⟩ = "-1atom" := by decide
example : CoinsString [⟨"atom", 5⟩, ⟨"btc", 10⟩] = "5atom,10btc" := by decide
example : ParseCoins "-1atom" = .error (.invalidFormat "-1atom") := by decide

/-- Claim C6: empty input and the two spec scenarios behave as claimed,
but the final conjunct exhibits the divergence: `"0atom,5btc"` parses to
a sequence whose first coin has amount `0`, yet `ParseCoins` accepts it,
because `IsValid` never tests the first coin's amount when the sequence
has two or more elements — contradicting the claim (and the source's own
comment "Must be sorted, and not have 0 amounts"). -/
theorem c6_parseCoins_at_inputs :
    ParseCoins "" = .ok [] ∧
      ParseCoins "10btc,5atom" = .ok [⟨"atom", 5⟩, ⟨"btc", 10⟩] ∧
      ParseCoins "5atom,0btc" = .error (.invalidCoinSet [⟨"atom", 5⟩, ⟨"btc", 0⟩]) ∧
      ParseCoins "0atom,5btc" = .ok [⟨"atom", 0⟩, ⟨"btc", 5⟩] :=
  ⟨by decide, by decide, by decide, by decide⟩

/-- Claim C9 counterexample: `ParseCoins "10atom, 5btc"` does not fail —
it succeeds, because `ParseCoin` trims each token before matching. -/
theorem c9_space_after_comma_counterexample :
    ParseCoins "10atom, 5btc" = .ok [⟨"atom", 10⟩, ⟨"btc", 5⟩] := by decide

/-- Claim C9 amended: the list-level splitter indeed does not trim, but
the single-coin parser trims each token itself (`strings.TrimSpace`), so
a space immediately after a comma is harmless and such inputs parse
successfully. -/
theorem c9_space_after_comma_amended :
    ParseCoin " 5btc" = .ok ⟨"btc", 5⟩ ∧
      ParseCoins "10atom, 5btc" = .ok [⟨"atom", 10⟩, ⟨"btc", 5⟩] :=
  ⟨by decide, by decide⟩

/-- Claim C4 counterexample: `[⟨"atom", -1⟩]` satisfies `IsValid` (the
validator only rejects amount zero), but its rendering `"-1atom"` starts
with a sign, which the digit-first grammar rejects, so the round-trip
fails instead of reproducing the value. -/
theorem c4_roundtrip_counterexample :
    IsValid [⟨"atom", -1⟩] = true ∧
      CoinsString [⟨"atom", -1⟩] = "-1atom" ∧
      ParseCoins (CoinsString [⟨"atom", -1⟩]) = .error (.invalidFormat "-1atom") :=
  ⟨by decide, by decide, by decide⟩

/-! ### The single-coin grammar characterised -/

theorem takeWhileAppendAll {α : Type} (p : α → Bool) :
    ∀ xs ys : List α, (∀ c ∈ xs, p c = true) →
      (xs ++ ys).takeWhile p = xs ++ ys.takeWhile p := by
  intro xs ys
  induction xs with
  | nil => intro _; simp
  | cons c cs ih =>
    intro h
    have hc : p c = true := h c (List.mem_cons_self c cs)
    simp only [List.cons_append, List.takeWhile_cons_of_pos hc, List.cons.injEq, true_and]
    exact ih fun x hx => h x (List.mem_cons_of_mem c hx)

theorem dropWhileAppendAll {α : Type} (p : α → Bool) :
    ∀ xs ys : List α, (∀ c ∈ xs, p c = true) →
      (xs ++ ys).dropWhile p = ys.dropWhile p := by
  intro xs ys
  induction xs with
  | nil => intro _; simp
  | cons c cs ih =>
    intro h
    have hc : p c = true := h c (List.mem_cons_self c cs)
    simp only [List.cons_append, List.dropWhile_cons_of_pos hc]
    exact ih fun x hx => h x (List.mem_cons_of_mem c hx)

theorem space_not_digit {c : Char} (h : isSpaceB c = true) : isDigitB c = false := by
  simp only [isSpaceB] at h
  simp only [isDigitB]
  simp only [Bool.or_eq_true, decide_eq_true_eq] at h
  simp only [Bool.and_eq_false_iff, decide_eq_false_iff_not]
  omega

theorem alpha_not_digit {c : Char} (h : isAlphaB c = true) : isDigitB c = false := by
  simp only [isAlphaB] at h
  simp only [isDigitB]
  simp only [Bool.or_eq_true, Bool.and_eq_true, decide_eq_true_eq] at h
  simp only [Bool.and_eq_false_iff, decide_eq_false_iff_not]
  omega

theorem alpha_not_space {c : Char} (h : isAlphaB c = true) : isSpaceB c = false := by
  simp only [isAlphaB] at h
  simp only [isSpaceB]
  simp only [Bool.or_eq_true, Bool.and_eq_true, decide_eq_true_eq] at h
  simp only [Bool.or_eq_false_iff, decide_eq_false_iff_not]
  omega

theorem spaceAlpha_digit_split (sp al : List Char)
    (hsp : ∀ c ∈ sp, isSpaceB c = true) (hal : ∀ c ∈ al, isAlphaB c = true)
    (halne : al ≠ []) :
    (sp ++ al).takeWhile isDigitB = [] ∧ (sp ++ al).dropWhile isDigitB = sp ++ al := by
  cases sp with
  | cons c sp' =>
    have hc : isDigitB c = false := space_not_digit (hsp c (List.mem_cons_self c sp'))
    simp only [List.cons_append]
    exact ⟨List.takeWhile_cons_of_neg (by simp [hc]),
      List.dropWhile_cons_of_neg (by simp [hc])⟩
  | nil =>
    simp only [List.nil_append]
    cases al with
    | nil => exact absurd rfl halne
    | cons c al' =>
      have hc : isDigitB c = false := alpha_not_digit (hal c (List.mem_cons_self c al'))
      exact ⟨List.takeWhile_cons_of_neg (by simp [hc]),
        List.dropWhile_cons_of_neg (by simp [hc])⟩

theorem coinMatch_of_decomp (t : String) (d sp al : List Char)
    (ht : t.data = d ++ sp ++ al)
    (hdne : d ≠ []) (hd : ∀ c ∈ d, isDigitB c = true)
    (hsp : ∀ c ∈ sp, isSpaceB c = true)
    (halne : al ≠ []) (hal : ∀ c ∈ al, isAlphaB c = true) :
    coinMatch t = some (d, al) := by
  rcases spaceAlpha_digit_split sp al hsp hal halne with ⟨hsplit1, hsplit2⟩
  have h1 : t.data.takeWhile isDigitB = d := by
    rw [ht, List.append_assoc, takeWhileAppendAll isDigitB d (sp ++ al) hd, hsplit1,
      List.append_nil]
  have h2 : t.data.dropWhile isDigitB = sp ++ al := by
    rw [ht, List.append_assoc, dropWhileAppendAll isDigitB d (sp ++ al) hd, hsplit2]
  have h3 : (sp ++ al).dropWhile isSpaceB = al := by
    rw [dropWhileAppendAll isSpaceB sp al hsp]
    cases al with
    | nil => exact absurd rfl halne
    | cons c al' =>
      have hc : isSpaceB c = false := alpha_not_space (hal c (List.mem_cons_self c al'))
      exact List.dropWhile_cons_of_neg (by simp [hc])
  unfold coinMatch
  rw [h1, h2, h3]
  have hde : d.isEmpty = false := by
    cases d with
    | nil => exact absurd rfl hdne
    | cons _ _ => rfl
  have hale : al.isEmpty = false := by
    cases al with
    | nil => exact absurd rfl halne
    | cons _ _ => rfl
  simp [hde, hale, List.all_eq_true.mpr hal]

theorem coinMatch_inv (t : String) (d al : List Char)
    (h : coinMatch t = some (d, al)) :
    ∃ sp, t.data = d ++ sp ++ al ∧ d ≠ [] ∧ (∀ c ∈ d, isDigitB c = true) ∧
      (∀ c ∈ sp, isSpaceB c = true) ∧ al ≠ [] ∧ (∀ c ∈ al, isAlphaB c = true) := by
  unfold coinMatch at h
  by_cases h1 : (t.data.takeWhile isDigitB).isEmpty
  · simp [h1] at h
  by_cases h2 : ((t.data.dropWhile isDigitB).dropWhile isSpaceB).isEmpty
  · simp [h1, h2] at h
  by_cases h3 : ((t.data.dropWhile isDigitB).dropWhile isSpaceB).all isAlphaB
  swap
  · simp [h1, h2, h3] at h
  simp only [h1, h2, h3, if_false, if_true, Bool.false_eq_true] at h
  obtain ⟨hd', hal'⟩ := Prod.mk.injEq .. ▸ Option.some.injEq .. ▸ h
  refine ⟨(t.data.dropWhile isDigitB).takeWhile isSpaceB, ?_, ?_, ?_, ?_, ?_, ?_⟩
  · rw [← hd', ← hal', List.append_assoc, List.takeWhile_append_dropWhile,
      List.takeWhile_append_dropWhile]
  · intro he
    exact h1 (by rw [hd', he]; rfl)
  · intro c hc
    rw [← hd'] at hc
    exact List.mem_takeWhile_imp hc
  · intro c hc
    exact List.mem_takeWhile_imp hc
  · intro he
    exact h2 (by rw [hal', he]; rfl)
  · intro c hc
    rw [← hal'] at hc
    exact List.all_eq_true.mp h3 c hc

/-- Claim C5: `ParseCoin s` succeeds exactly when the whitespace-trimmed
input decomposes as one or more decimal digits, optional ASCII
whitespace, then one or more ASCII letters with nothing else, and the
digit run fits a native 64-bit integer; on a match it returns the coin
with the letter run verbatim as denomination and the digit run's value
as amount; on a grammar non-match it fails with the invalid-format error
carrying the original (untrimmed) input string. -/
theorem c5_parseCoin_grammar (s : String) :
    ((∃ c, ParseCoin s = .ok c) ↔
      ∃ d sp al, (goTrim s).data = d ++ sp ++ al ∧ d ≠ [] ∧
        (∀ c ∈ d, isDigitB c = true) ∧ (∀ c ∈ sp, isSpaceB c = true) ∧
        al ≠ [] ∧ (∀ c ∈ al, isAlphaB c = true) ∧
        natOfDigits d ≤ 2 ^ 63 - 1) ∧
    (∀ d sp al, (goTrim s).data = d ++ sp ++ al → d ≠ [] →
      (∀ c ∈ d, isDigitB c = true) → (∀ c ∈ sp, isSpaceB c = true) →
      al ≠ [] → (∀ c ∈ al, isAlphaB c = true) → natOfDigits d ≤ 2 ^ 63 - 1 →
      ParseCoin s = .ok ⟨⟨al⟩, (natOfDigits d : Int)⟩) ∧
    ((¬ ∃ d sp al, (goTrim s).data = d ++ sp ++ al ∧ d ≠ [] ∧
        (∀ c ∈ d, isDigitB c = true) ∧ (∀ c ∈ sp, isSpaceB c = true) ∧
        al ≠ [] ∧ (∀ c ∈ al, isAlphaB c = true)) →
      ParseCoin s = .error (.invalidFormat s)) := by
  have key : ∀ d sp al, (goTrim s).data = d ++ sp ++ al → d ≠ [] →
      (∀ c ∈ d, isDigitB c = true) → (∀ c ∈ sp, isSpaceB c = true) →
      al ≠ [] → (∀ c ∈ al, isAlphaB c = true) → natOfDigits d ≤ 2 ^ 63 - 1 →
      ParseCoin s = .ok ⟨⟨al⟩, (natOfDigits d : Int)⟩ := by
    intro d sp al ht hdne hd hsp halne hal hbound
    have hm := coinMatch_of_decomp (goTrim s) d sp al ht hdne hd hsp halne hal
    unfold ParseCoin atoi
    simp only [hm]
    rw [if_pos hbound]
  refine ⟨⟨?_, ?_⟩, key, ?_⟩
  · rintro ⟨c, hc⟩
    unfold ParseCoin at hc
    cases hm : coinMatch (goTrim s) with
    | none => rw [hm] at hc; cases hc
    | some p =>
      obtain ⟨d', al'⟩ := p
      rw [hm] at hc
      rcases coinMatch_inv _ _ _ hm with ⟨sp, ht, hdne, hd, hsp, halne, hal⟩
      by_cases hb : natOfDigits d' ≤ 2 ^ 63 - 1
      · exact ⟨d', sp, al', ht, hdne, hd, hsp, halne, hal, hb⟩
      · exfalso
        simp only [] at hc
        unfold atoi at hc
        rw [if_neg hb] at hc
        cases hc
  · rintro ⟨d, sp, al, ht, hdne, hd, hsp, halne, hal, hb⟩
    exact ⟨_, key d sp al ht hdne hd hsp halne hal hb⟩
  · intro hno
    cases hm : coinMatch (goTrim s) with
    | none =>
      unfold ParseCoin
      rw [hm]
    | some p =>
      obtain ⟨d', al'⟩ := p
      exfalso
      apply hno
      rcases coinMatch_inv _ _ _ hm with ⟨sp, ht, hdne, hd, hsp, halne, hal⟩
      exact ⟨d', sp, al', ht, hdne, hd, hsp, halne, hal⟩

/-- Witness for C5: a concrete decomposition, with surrounding whitespace
trimmed and inner whitespace between the digit and letter runs. -/
theorem c5_parseCoin_grammar_witness : ParseCoin " 10 atom " = .ok ⟨"atom", 10⟩ :=
  (c5_parseCoin_grammar " 10 atom ").2.1 [Char.ofNat 49, Char.ofNat 48] [Char.ofNat 32]
    [Char.ofNat 97, Char.ofNat 116, Char.ofNat 111, Char.ofNat 109]
    (by decide) (by decide) (by decide) (by decide) (by decide) (by decide) (by decide)

/-! ### Decimal rendering round-trips through `natOfDigits` -/

theorem natDecimalCore_eq_W : ∀ fuel n acc, n < fuel →
    natDecimalCore fuel n acc = natDecimalW n ++ acc := by
  intro fuel
  induction fuel with
  | zero => intro n acc h; exact absurd h (by omega)
  | succ fuel ih =>
    intro n acc h
    by_cases h10 : n < 10
    · rw [natDecimalCore, if_pos h10, natDecimalW, dif_pos h10]
      rfl
    · rw [natDecimalCore, if_neg h10, natDecimalW, dif_neg h10,
        ih (n / 10) _ (by omega), List.append_assoc]
      rfl

theorem natDecimal_eq_W (n : Nat) : natDecimal n = natDecimalW n := by
  rw [natDecimal, natDecimalCore_eq_W (n + 1) n [] (by omega), List.append_nil]

theorem ofNat_digit_toNat (m : Nat) (h : m < 10) : (Char.ofNat (48 + m)).toNat = 48 + m := by
  interval_cases m <;> decide

theorem ofNat_digit_isDigit (m : Nat) (h : m < 10) : isDigitB (Char.ofNat (48 + m)) = true := by
  interval_cases m <;> decide

theorem natDecimalW_all_digits (n : Nat) : ∀ c ∈ natDecimalW n, isDigitB c = true := by
  induction n using Nat.strong_induction_on with
  | _ n ih =>
    intro c hc
    rw [natDecimalW] at hc
    by_cases h10 : n < 10
    · rw [dif_pos h10] at hc
      rcases List.mem_singleton.mp hc with rfl
      exact ofNat_digit_isDigit n h10
    · rw [dif_neg h10] at hc
      rcases List.mem_append.mp hc with hc' | hc'
      · exact ih (n / 10) (by omega) c hc'
      · rcases List.mem_singleton.mp hc' with rfl
        exact ofNat_digit_isDigit (n % 10) (by omega)

theorem natDecimalW_ne_nil (n : Nat) : natDecimalW n ≠ [] := by
  rw [natDecimalW]
  by_cases h10 : n < 10
  · rw [dif_pos h10]; simp
  · rw [dif_neg h10]; simp

theorem natOfDigits_concat (l : List Char) (c : Char) :
    natOfDigits (l ++ [c]) = natOfDigits l * 10 + (c.toNat - 48) := by
  unfold natOfDigits
  rw [List.foldl_append]
  simp [Nat.mul_comm]

theorem natOfDigits_natDecimalW (n : Nat) : natOfDigits (natDecimalW n) = n := by
  induction n using Nat.strong_induction_on with
  | _ n ih =>
    rw [natDecimalW]
    by_cases h10 : n < 10
    · rw [dif_pos h10]
      show natOfDigits ([] ++ [Char.ofNat (48 + n)]) = n
      rw [natOfDigits_concat, ofNat_digit_toNat n h10]
      show 0 * 10 + (48 + n - 48) = n
      omega
    · rw [dif_neg h10, natOfDigits_concat, ih (n / 10) (by omega),
        ofNat_digit_toNat (n % 10) (by omega)]
      omega

/-! ### A rendered coin parses back to itself -/

theorem digit_not_goSpace {c : Char} (h : isDigitB c = true) : goIsSpace c = false := by
  simp only [isDigitB, Bool.and_eq_true, decide_eq_true_eq] at h
  simp only [goIsSpace, Bool.or_eq_false_iff, Bool.and_eq_false_iff,
    decide_eq_false_iff_not]
  omega

theorem alpha_not_goSpace {c : Char} (h : isAlphaB c = true) : goIsSpace c = false := by
  simp only [isAlphaB, Bool.or_eq_true, Bool.and_eq_true, decide_eq_true_eq] at h
  simp only [goIsSpace, Bool.or_eq_false_iff, Bool.and_eq_false_iff,
    decide_eq_false_iff_not]
  omega

theorem dropWhile_eq_self_all {α : Type} (p : α → Bool) :
    ∀ l : List α, (∀ c ∈ l, p c = false) → l.dropWhile p = l := by
  intro l h
  cases l with
  | nil => rfl
  | cons c cs =>
    exact List.dropWhile_cons_of_neg (by simp [h c (List.mem_cons_self c cs)])

theorem goTrim_eq_self (s : String) (h : ∀ c ∈ s.data, goIsSpace c = false) :
    goTrim s = s := by
  unfold goTrim
  rw [dropWhile_eq_self_all goIsSpace s.data h,
    dropWhile_eq_self_all goIsSpace s.data.reverse
      (fun c hc => h c (List.mem_reverse.mp hc)),
    List.reverse_reverse]

theorem str_mk_append_data (l : List Char) (s : String) :
    (String.mk l ++ s).data = l ++ s.data := by
  cases s
  rfl

theorem coinString_data (coin : Coin) (h0 : 0 ≤ coin.Amount) :
    (CoinString coin).data = natDecimalW coin.Amount.toNat ++ coin.Denom.data := by
  unfold CoinString intToString
  rw [if_neg (by omega), str_mk_append_data, natDecimal_eq_W]

theorem coinString_classes (coin : Coin) (h0 : 0 ≤ coin.Amount)
    (halpha : ∀ c ∈ coin.Denom.data, isAlphaB c = true) :
    ∀ c ∈ (CoinString coin).data, isDigitB c = true ∨ isAlphaB c = true := by
  intro c hc
  rw [coinString_data coin h0] at hc
  rcases List.mem_append.mp hc with hc' | hc'
  · exact Or.inl (natDecimalW_all_digits _ c hc')
  · exact Or.inr (halpha c hc')

theorem parseCoin_roundtrip (coin : Coin)
    (hden : coin.Denom.data ≠ []) (halpha : ∀ c ∈ coin.Denom.data, isAlphaB c = true)
    (h0 : 0 ≤ coin.Amount) (hmax : coin.Amount ≤ 2 ^ 63 - 1) :
    ParseCoin (CoinString coin) = .ok coin := by
  have htrim : goTrim (CoinString coin) = CoinString coin :=
    goTrim_eq_self _ fun c hc => by
      rcases coinString_classes coin h0 halpha c hc with hd | ha
      · exact digit_not_goSpace hd
      · exact alpha_not_goSpace ha
  have hdecomp : (goTrim (CoinString coin)).data =
      natDecimalW coin.Amount.toNat ++ [] ++ coin.Denom.data := by
    rw [htrim, coinString_data coin h0, List.append_nil]
  have hm := coinMatch_of_decomp (goTrim (CoinString coin))
    (natDecimalW coin.Amount.toNat) [] coin.Denom.data hdecomp
    (natDecimalW_ne_nil _) (natDecimalW_all_digits _) (by intro c hc; cases hc)
    hden halpha
  have hval : natOfDigits (natDecimalW coin.Amount.toNat) = coin.Amount.toNat :=
    natOfDigits_natDecimalW _
  have hbound : natOfDigits (natDecimalW coin.Amount.toNat) ≤ 2 ^ 63 - 1 := by
    rw [hval]
    omega
  unfold ParseCoin atoi
  simp only [hm]
  rw [if_pos hbound, hval]
  show Except.ok ⟨⟨coin.Denom.data⟩, (coin.Amount.toNat : Int)⟩ = Except.ok coin
  have he1 : (⟨coin.Denom.data⟩ : String) = coin.Denom := by
    cases hd : coin.Denom
    rfl
  have he2 : (coin.Amount.toNat : Int) = coin.Amount := Int.toNat_of_nonneg h0
  rw [he1, he2]

/-! ### The list rendering splits back into its coin renderings -/

theorem foldl_coinsCatF : ∀ (l : Coins) (acc : List Char),
    l.foldl coinsCatF acc = acc ++ l.foldl coinsCatF [] := by
  intro l
  induction l with
  | nil => intro acc; simp
  | cons x xs ih =>
    intro acc
    rw [List.foldl_cons, List.foldl_cons, ih (coinsCatF acc x), ih (coinsCatF [] x)]
    unfold coinsCatF
    simp [List.append_assoc]

theorem coinsJoin_cons (x : Coin) (xs : Coins) :
    List.foldl coinsCatF [] (x :: xs) =
      (CoinString x).data ++ [','] ++ List.foldl coinsCatF [] xs := by
  rw [List.foldl_cons, foldl_coinsCatF]
  unfold coinsCatF
  simp [List.append_assoc]

theorem coinsJoin_ne_nil (x : Coin) (xs : Coins) :
    List.foldl coinsCatF [] (x :: xs) ≠ [] := by
  rw [coinsJoin_cons]
  simp

theorem coinsString_data_eq (x : Coin) (xs : Coins) :
    (CoinsString (x :: xs)).data = (List.foldl coinsCatF [] (x :: xs)).dropLast := by
  unfold CoinsString
  rw [if_neg (by simp)]

theorem dropLast_coinsJoin (x : Coin) (xs : Coins) :
    (List.foldl coinsCatF [] (x :: xs)).dropLast =
      (CoinString x).data ++
        (if xs = [] then [] else ',' :: (List.foldl coinsCatF [] xs).dropLast) := by
  cases xs with
  | nil =>
    rw [coinsJoin_cons, if_pos rfl]
    simp
  | cons y ys =>
    rw [coinsJoin_cons, if_neg (by simp),
      List.dropLast_append_of_ne_nil _ (coinsJoin_ne_nil y ys)]
    simp [List.append_assoc]

theorem comma_not_in_coinString (coin : Coin) (h0 : 0 ≤ coin.Amount)
    (halpha : ∀ c ∈ coin.Denom.data, isAlphaB c = true) :
    (',' : Char) ∉ (CoinString coin).data := by
  intro hm
  rcases coinString_classes coin h0 halpha _ hm with hd | ha
  · exact absurd hd (by decide)
  · exact absurd ha (by decide)

theorem splitOnChar_cons (sep c : Char) (cs : List Char) :
    splitOnChar sep (c :: cs) =
      match splitOnChar sep cs with
      | [] => [[c]]
      | seg :: segs => if c = sep then [] :: seg :: segs else (c :: seg) :: segs := rfl

theorem splitOnChar_ne_nil (sep : Char) : ∀ l, splitOnChar sep l ≠ [] := by
  intro l
  cases l with
  | nil => simp [splitOnChar]
  | cons c cs =>
    unfold splitOnChar
    cases h : splitOnChar sep cs with
    | nil => simp
    | cons seg segs => by_cases hc : c = sep <;> simp [hc]

theorem splitOnChar_no_sep (sep : Char) : ∀ l : List Char, sep ∉ l → splitOnChar sep l = [l] := by
  intro l
  induction l with
  | nil => intro _; rfl
  | cons c cs ih =>
    intro h
    have h' : ¬ (sep = c ∨ sep ∈ cs) := fun hx => h (List.mem_cons.mpr hx)
    have hne : ¬ c = sep := fun he => h' (Or.inl he.symm)
    have hnotin : sep ∉ cs := fun hm => h' (Or.inr hm)
    unfold splitOnChar
    simp [ih hnotin, hne]

theorem splitOnChar_append (sep : Char) :
    ∀ xs ys : List Char, sep ∉ xs →
      splitOnChar sep (xs ++ sep :: ys) = xs :: splitOnChar sep ys := by
  intro xs
  induction xs with
  | nil =>
    intro ys _
    show splitOnChar sep (sep :: ys) = [] :: splitOnChar sep ys
    rw [splitOnChar_cons]
    cases h : splitOnChar sep ys with
    | nil => exact absurd h (splitOnChar_ne_nil sep ys)
    | cons seg segs => simp
  | cons c cs ih =>
    intro ys h
    have h' : ¬ (sep = c ∨ sep ∈ cs) := fun hx => h (List.mem_cons.mpr hx)
    have hne : ¬ c = sep := fun he => h' (Or.inl he.symm)
    have hnotin : sep ∉ cs := fun hm => h' (Or.inr hm)
    show splitOnChar sep (c :: (cs ++ sep :: ys)) = (c :: cs) :: splitOnChar sep ys
    rw [splitOnChar_cons, ih ys hnotin]
    simp [hne]

theorem split_coinsString : ∀ (x : Coin) (xs : Coins),
    (∀ coin ∈ x :: xs, 0 ≤ coin.Amount ∧ ∀ c ∈ coin.Denom.data, isAlphaB c = true) →
    splitOnChar ',' (CoinsString (x :: xs)).data =
      (x :: xs).map fun coin => (CoinString coin).data := by
  intro x xs
  induction xs generalizing x with
  | nil =>
    intro h
    rw [coinsString_data_eq, dropLast_coinsJoin, if_pos rfl, List.append_nil,
      splitOnChar_no_sep ','
        _ (comma_not_in_coinString x (h x (List.mem_cons_self x [])).1
          (h x (List.mem_cons_self x [])).2)]
    rfl
  | cons y ys ih =>
    intro h
    rw [coinsString_data_eq, dropLast_coinsJoin, if_neg (by simp),
      splitOnChar_append ','
        _ _ (comma_not_in_coinString x (h x (List.mem_cons_self x (y :: ys))).1
          (h x (List.mem_cons_self x (y :: ys))).2),
      ← coinsString_data_eq y ys,
      ih y (fun coin hc => h coin (List.mem_cons_of_mem x hc))]
    rfl

theorem mapM_parse_ok : ∀ l : Coins, (∀ coin ∈ l, ParseCoin (CoinString coin) = .ok coin) →
    (l.map fun coin => (CoinString coin).data).mapM (fun seg => ParseCoin ⟨seg⟩) =
      Except.ok l := by
  intro l
  induction l with
  | nil => intro _; rfl
  | cons x xs ih =>
    intro h
    rw [List.map_cons, List.mapM_cons]
    have he : (⟨(CoinString x).data⟩ : String) = CoinString x := by
      cases hcs : CoinString x
      rfl
    rw [he, h x (List.mem_cons_self x xs), ih fun c hc => h c (List.mem_cons_of_mem x hc)]
    rfl

/-! ### Sorted valid sequences are fixed by the sort -/

theorem sortCoins_of_pairwise (l : Coins) (h : List.Pairwise dlt l) : sortCoins l = l := by
  apply List.Sorted.insertionSort_eq
  exact h.imp fun {a b} hab => by
    show strLe a.Denom b.Denom = true
    rw [strLe_eq_not_lt, strLt_asymm hab]
    rfl

theorem isValidFrom_inv : ∀ (l : List Coin) (low : String), isValidFrom low l = true →
    List.Pairwise dlt l ∧ ∀ c ∈ l, strLt low c.Denom = true := by
  intro l
  induction l with
  | nil => intro low _; exact ⟨List.Pairwise.nil, by simp⟩
  | cons c cs ih =>
    intro low h
    unfold isValidFrom at h
    by_cases h1 : strLe c.Denom low = true
    · rw [if_pos h1] at h; cases h
    · rw [if_neg h1] at h
      by_cases h2 : c.Amount = 0
      · rw [if_pos h2] at h; cases h
      · rw [if_neg h2] at h
        have hlow : strLt low c.Denom = true := by
          rw [Bool.not_eq_true, strLe_eq_not_lt] at h1
          simpa using h1
        rcases ih c.Denom h with ⟨hp, hall⟩
        refine ⟨List.pairwise_cons.mpr ⟨hall, hp⟩, ?_⟩
        intro x hx
        rcases List.mem_cons.mp hx with rfl | hx'
        · exact hlow
        · exact strLt_trans hlow (hall x hx')

theorem pairwise_of_isValid (l : Coins) (h : IsValid l = true) : List.Pairwise dlt l := by
  cases l with
  | nil => exact List.Pairwise.nil
  | cons c1 rest =>
    cases rest with
    | nil => exact List.pairwise_singleton dlt c1
    | cons c2 rest2 =>
      have h' : isValidFrom c1.Denom (c2 :: rest2) = true := h
      rcases isValidFrom_inv (c2 :: rest2) c1.Denom h' with ⟨hp, hall⟩
      exact List.pairwise_cons.mpr ⟨hall, hp⟩

/-- Claim C4 (amended): the round-trip `ParseCoins (c.String()) = c` holds
for every `IsValid` Coins value whose denominations are nonempty ASCII
letter strings and whose amounts are nonnegative and at most `2^63 - 1`
(so the rendering is sign-free and re-parseable); the unamended claim
fails because `IsValid` also admits negative amounts, whose rendering
starts with `-` and is rejected by the digit-first grammar. -/
theorem c4_roundtrip_amended (coins : Coins) (hv : IsValid coins = true)
    (hgood : ∀ coin ∈ coins, coin.Denom.data ≠ [] ∧
      (∀ c ∈ coin.Denom.data, isAlphaB c = true) ∧
      0 ≤ coin.Amount ∧ coin.Amount ≤ 2 ^ 63 - 1) :
    ParseCoins (CoinsString coins) = .ok coins := by
  cases coins with
  | nil => rfl
  | cons x xs =>
    have hx := hgood x (List.mem_cons_self x xs)
    have hcsne : (CoinString x).data ≠ [] := by
      rw [coinString_data x hx.2.2.1]
      intro he
      exact natDecimalW_ne_nil _ (List.append_eq_nil.mp he).1
    have hlen : ¬ (CoinsString (x :: xs)).length = 0 := by
      show ¬ (CoinsString (x :: xs)).data.length = 0
      rw [coinsString_data_eq, dropLast_coinsJoin]
      intro h0
      rw [List.length_eq_zero, List.append_eq_nil] at h0
      exact hcsne h0.1
    unfold ParseCoins
    rw [if_neg hlen,
      split_coinsString x xs (fun coin hc => ⟨(hgood coin hc).2.2.1, (hgood coin hc).2.1⟩),
      mapM_parse_ok (x :: xs) (fun coin hc => parseCoin_roundtrip coin (hgood coin hc).1
        (hgood coin hc).2.1 (hgood coin hc).2.2.1 (hgood coin hc).2.2.2)]
    have hsort : sortCoins (x :: xs) = x :: xs :=
      sortCoins_of_pairwise _ (pairwise_of_isValid _ hv)
    show (if IsValid (sortCoins (x :: xs)) = true then Except.ok (sortCoins (x :: xs))
      else Except.error (ParseErr.invalidCoinSet (sortCoins (x :: xs)))) = Except.ok (x :: xs)
    rw [hsort, if_pos hv]

/-- Witness for C4 (amended) at a two-coin valid value. -/
theorem c4_roundtrip_amended_witness :
    ParseCoins (CoinsString [⟨"atom", 5⟩, ⟨"btc", 10⟩]) = .ok [⟨"atom", 5⟩, ⟨"btc", 10⟩] :=
  c4_roundtrip_amended [⟨"atom", 5⟩, ⟨"btc", 10⟩] (by decide) (by decide)
